import Mathlib

/-!
# Verification of the gitpy object-storage core

A shallow embedding of `key_value.py` and `lib.py` from the gitpy
repository, together with theorems settling the specification claims.

Conventions of the embedding:
* Python `bytes` values are `List Nat` (each element a byte value).
* Python exceptions are modelled with `Except PyErr`; a raised
  exception is an `Except.error`.
* Python's `-1` sentinel returned by `bytes.find` is kept as an `Int`.
* The external library functions `hashlib.sha1(...).hexdigest()`,
  `zlib.compress` and `zlib.decompress` are parameters of the
  definitions that use them (they are opaque collaborators of the
  source, not part of it).
-/

namespace GitPy

/-- Python `bytes` as a list of byte values. -/
abbrev Bytes := List Nat

/-- The Python exceptions that the modelled code can raise.
`corruptObject` models the `Exception("Malformed object ...: bad length")`
raised by `GitRepository.object_read`; `unknownObjectType` models the
`ValueError(f"{fmt} is not a valid format!")` raised there. -/
inductive PyErr where
  | indexError
  | attributeError
  | notImplementedError
  | typeError
  | valueError
  | corruptObject
  | unknownObjectType
  | fileNotFound
  | zlibError
  deriving Repr, DecidableEq

instance {ε α : Type} [DecidableEq ε] [DecidableEq α] : DecidableEq (Except ε α) := fun
  | .ok a, .ok b =>
    if h : a = b then isTrue (by rw [h]) else isFalse (fun hc => h (by injection hc))
  | .error a, .error b =>
    if h : a = b then isTrue (by rw [h]) else isFalse (fun hc => h (by injection hc))
  | .ok _, .error _ => isFalse (fun hc => by injection hc)
  | .error _, .ok _ => isFalse (fun hc => by injection hc)

/-- A value held by `KeyValueStore`: either a single bytes value or the
list that duplicate insertions accumulate into. -/
inductive Value where
  | scalar (v : Bytes)
  | list (vs : List Bytes)
  deriving Repr, DecidableEq

/-- The `KeyValueStore` (an `OrderedDict` subclass) as an ordered
association list: insertion order of the list is iteration order. -/
abbrev KV := List (Bytes × Value)

/-- `KeyValueStore.__setitem__`: a new key is appended at the end
(`OrderedDict` insertion order); assigning to an existing key keeps its
position and folds the old contents with the new value into a list. -/
def setItem (m : KV) (k : Bytes) (v : Bytes) : KV :=
  match m with
  | [] => [(k, Value.scalar v)]
  | (k₀, v₀) :: rest =>
    if k₀ = k then
      (k₀, match v₀ with
        | Value.list vs => Value.list (vs ++ [v])
        | Value.scalar w => Value.list [w, v]) :: rest
    else (k₀, v₀) :: setItem rest k v

/-- Index of the first occurrence of byte `b` in `l`, if any. -/
def findAux (l : Bytes) (b : Nat) : Option Nat :=
  match l with
  | [] => none
  | x :: xs => if x = b then some 0 else (findAux xs b).map (· + 1)

/-- Python `raw.find(bytes([b]), s)` for a non-negative start `s`:
the index of the first occurrence of `b` at position `≥ s`, or `-1`. -/
def findFrom (l : Bytes) (b : Nat) (s : Nat) : Int :=
  match findAux (l.drop s) b with
  | some i => ((s + i : Nat) : Int)
  | none => -1

/-- Python `raw[a:b]` for non-negative slice bounds. -/
def sliceN (l : Bytes) (a b : Nat) : Bytes := (l.take b).drop a

/-- Python `value.replace(b'\n ', b'\n')`: left-to-right, non-overlapping
replacement of the two-byte pattern newline-space by a bare newline. -/
def unescapeNl : Bytes → Bytes
  | [] => []
  | [b] => [b]
  | b :: c :: rest =>
    if b = 10 ∧ c = 32 then 10 :: unescapeNl rest
    else b :: unescapeNl (c :: rest)

/-- Python `y.replace(b'\n', b'\n ')`: every newline gets a space
inserted after it. -/
def escapeNl : Bytes → Bytes
  | [] => []
  | b :: rest => if b = 10 then 10 :: 32 :: escapeNl rest else b :: escapeNl rest

theorem findAux_eq_some {l : Bytes} {b : Nat} {i : Nat}
    (h : findAux l b = some i) : i < l.length ∧ l.getD i 0 = b := by
  induction l generalizing i with
  | nil => simp [findAux] at h
  | cons x xs ih =>
    simp only [findAux] at h
    by_cases hx : x = b
    · simp [hx] at h
      subst h
      simp [hx]
    · simp [hx] at h
      obtain ⟨j, hj, rfl⟩ := h
      have hih := ih hj
      refine ⟨by simpa using Nat.succ_lt_succ hih.1, ?_⟩
      simpa using hih.2

theorem findFrom_ne_neg_one {l : Bytes} {b : Nat} {s : Nat}
    (h : findFrom l b s ≠ -1) :
    s ≤ (findFrom l b s).toNat ∧ (findFrom l b s).toNat < l.length ∧
      l.getD (findFrom l b s).toNat 0 = b := by
  unfold findFrom at *
  cases hf : findAux (l.drop s) b with
  | none => simp [hf] at h
  | some i =>
    have hi := findAux_eq_some hf
    have hlen : i < l.length - s := by
      have := hi.1
      simpa [List.length_drop] using this
    have hs : s < l.length := by omega
    have hget : l.getD (s + i) 0 = b := by
      have := hi.2
      rwa [List.getD_eq_getElem?_getD, List.getElem?_drop,
        ← List.getD_eq_getElem?_getD] at this
    simp only [hf, Int.toNat_ofNat]
    refine ⟨by omega, by omega, hget⟩

/-- The inner `while True` loop of `KeyValueStore.from_data`: starting
from newline-search position `e` (initially the position of the space
separating key and value), find the end of the current value.  Python:

    while True:
        end = raw.find(b'\n', end + 1)
        if end == -1:
            value = raw[space + 1:len(raw)].replace(b'\n ', b'\n')
            break
        elif raw[end + 1] != ord(' '):
            value = raw[space + 1:end].replace(b'\n ', b'\n')
            break

The subscript `raw[end + 1]` raises `IndexError` when `end + 1` equals
`len(raw)` (a found newline is always at index `< len(raw)`). -/
def valueScan (raw : Bytes) (space e : Nat) : Except PyErr (Bytes × Int) :=
  if he : findFrom raw 10 (e + 1) = -1 then
    .ok (unescapeNl (sliceN raw (space + 1) raw.length), -1)
  else if hlen : (findFrom raw 10 (e + 1)).toNat + 1 < raw.length then
    if raw.getD ((findFrom raw 10 (e + 1)).toNat + 1) 0 ≠ 32 then
      .ok (unescapeNl (sliceN raw (space + 1) (findFrom raw 10 (e + 1)).toNat),
        findFrom raw 10 (e + 1))
    else
      valueScan raw space (findFrom raw 10 (e + 1)).toNat
  else .error .indexError
termination_by raw.length - e
decreasing_by
  have h := findFrom_ne_neg_one he
  omega

theorem valueScan_bounds {raw : Bytes} {space e : Nat} :
    ∀ {v : Bytes} {r : Int}, valueScan raw space e = .ok (v, r) → r ≠ -1 →
      e < r.toNat ∧ r.toNat < raw.length := by
  induction e using valueScan.induct raw space with
  | case1 e he =>
    intro v r h hr
    rw [valueScan, dif_pos he] at h
    cases h
    simp at hr
  | case2 e he hlen hsp =>
    intro v r h hr
    rw [valueScan, dif_neg he, dif_pos hlen, if_pos hsp] at h
    cases h
    have hb := findFrom_ne_neg_one he
    omega
  | case3 e he hlen hsp ih =>
    intro v r h hr
    rw [valueScan, dif_neg he, dif_pos hlen, if_neg hsp] at h
    have hb := findFrom_ne_neg_one he
    have := ih h hr
    omega
  | case4 e he hlen =>
    intro v r h hr
    rw [valueScan, dif_neg he, dif_neg hlen] at h
    cases h

/-- The outer `while end != -1` loop of `KeyValueStore.from_data`.
At each iteration Python recomputes `space = raw.find(b' ', start)` and
sets `end = space` (for the very first iteration `start = 0` and
`space = raw.find(b' ')`, the same computation). -/
def fromDataLoop (raw : Bytes) (obj : KV) (start : Nat) : Except PyErr KV :=
  if hsp : findFrom raw 32 start = -1 then .ok obj
  else
    match hscan : valueScan raw (findFrom raw 32 start).toNat
        (findFrom raw 32 start).toNat with
    | .error err => .error err
    | .ok (value, e) =>
      if he : e = -1 then
        .ok (setItem obj (sliceN raw start (findFrom raw 32 start).toNat) value)
      else
        fromDataLoop raw
          (setItem obj (sliceN raw start (findFrom raw 32 start).toNat) value)
          (e.toNat + 1)
termination_by raw.length - start
decreasing_by
  have hb := findFrom_ne_neg_one hsp
  have hv := valueScan_bounds hscan he
  omega

/-- One-step unfolding of `fromDataLoop` with a non-dependent match,
convenient for rewriting. -/
theorem fromDataLoop_eq (raw : Bytes) (obj : KV) (start : Nat) :
    fromDataLoop raw obj start =
      if findFrom raw 32 start = -1 then .ok obj
      else
        match valueScan raw (findFrom raw 32 start).toNat
            (findFrom raw 32 start).toNat with
        | .error err => .error err
        | .ok (value, e) =>
          if e = -1 then
            .ok (setItem obj (sliceN raw start (findFrom raw 32 start).toNat) value)
          else
            fromDataLoop raw
              (setItem obj (sliceN raw start (findFrom raw 32 start).toNat) value)
              (e.toNat + 1) := by
  rw [fromDataLoop]
  split
  next hsp => rfl
  next hsp =>
    split
    next err heq => rw [heq]
    next value e heq =>
      rw [heq]
      dsimp only
      by_cases he : e = -1
      · rw [dif_pos he, if_pos he]
      · rw [dif_neg he, if_neg he]

/-- `KeyValueStore.from_data`: parse a header-text buffer into the
ordered multimap. -/
def KeyValueStore.from_data (raw : Bytes) : Except PyErr KV :=
  fromDataLoop raw [] 0

/-- Fuel-indexed twin of `valueScan`, definitionally equal to it for any
fuel exceeding the number of remaining scan positions
(see `valueScanF_eq`); it exists so that concrete instances reduce in
the kernel. -/
def valueScanF (raw : Bytes) (space : Nat) : Nat → Nat → Except PyErr (Bytes × Int)
  | _, 0 => .error .indexError
  | e, fuel + 1 =>
    if findFrom raw 10 (e + 1) = -1 then
      .ok (unescapeNl (sliceN raw (space + 1) raw.length), -1)
    else if (findFrom raw 10 (e + 1)).toNat + 1 < raw.length then
      if raw.getD ((findFrom raw 10 (e + 1)).toNat + 1) 0 ≠ 32 then
        .ok (unescapeNl (sliceN raw (space + 1) (findFrom raw 10 (e + 1)).toNat),
          findFrom raw 10 (e + 1))
      else
        valueScanF raw space (findFrom raw 10 (e + 1)).toNat fuel
    else .error .indexError

theorem valueScanF_eq {raw : Bytes} {space : Nat} :
    ∀ {e fuel : Nat}, raw.length - e < fuel →
      valueScanF raw space e fuel = valueScan raw space e := by
  intro e
  induction e using valueScan.induct raw space with
  | case1 e he =>
    intro fuel hf
    cases fuel with
    | zero => omega
    | succ f => rw [valueScanF, if_pos he, valueScan, dif_pos he]
  | case2 e he hlen hsp =>
    intro fuel hf
    cases fuel with
    | zero => omega
    | succ f =>
      rw [valueScanF, if_neg he, if_pos hlen, if_pos hsp,
        valueScan, dif_neg he, dif_pos hlen, if_pos hsp]
  | case3 e he hlen hsp ih =>
    intro fuel hf
    cases fuel with
    | zero => omega
    | succ f =>
      have hb := findFrom_ne_neg_one he
      rw [valueScanF, if_neg he, if_pos hlen, if_neg hsp,
        valueScan, dif_neg he, dif_pos hlen, if_neg hsp]
      exact ih (by omega)
  | case4 e he hlen =>
    intro fuel hf
    cases fuel with
    | zero => omega
    | succ f =>
      rw [valueScanF, if_neg he, if_neg hlen, valueScan, dif_neg he, dif_neg hlen]

/-- Fuel-indexed twin of `fromDataLoop` (see `fromDataLoopF_eq`). -/
def fromDataLoopF (raw : Bytes) : KV → Nat → Nat → Except PyErr KV
  | _, _, 0 => .error .indexError
  | obj, start, fuel + 1 =>
    if findFrom raw 32 start = -1 then .ok obj
    else
      match valueScanF raw (findFrom raw 32 start).toNat
          (findFrom raw 32 start).toNat (raw.length + 1) with
      | .error err => .error err
      | .ok (value, e) =>
        if e = -1 then
          .ok (setItem obj (sliceN raw start (findFrom raw 32 start).toNat) value)
        else
          fromDataLoopF raw
            (setItem obj (sliceN raw start (findFrom raw 32 start).toNat) value)
            (e.toNat + 1) fuel

theorem fromDataLoopF_eq {raw : Bytes} {obj : KV} {start : Nat} :
    ∀ {fuel : Nat}, raw.length - start < fuel →
      fromDataLoopF raw obj start fuel = fromDataLoop raw obj start := by
  induction obj, start using fromDataLoop.induct raw with
  | case1 obj start hsp =>
    intro fuel hf
    cases fuel with
    | zero => omega
    | succ f => rw [fromDataLoopF, if_pos hsp, fromDataLoop, dif_pos hsp]
  | case2 obj start hsp err hscan =>
    intro fuel hf
    cases fuel with
    | zero => omega
    | succ f =>
      have hsc : valueScanF raw (findFrom raw 32 start).toNat
          (findFrom raw 32 start).toNat (raw.length + 1) =
          valueScan raw (findFrom raw 32 start).toNat
            (findFrom raw 32 start).toNat := valueScanF_eq (by omega)
      rw [fromDataLoopF, if_neg hsp, hsc, hscan,
        fromDataLoop_eq, if_neg hsp, hscan]
  | case3 obj start hsp value hscan =>
    intro fuel hf
    cases fuel with
    | zero => omega
    | succ f =>
      have hsc : valueScanF raw (findFrom raw 32 start).toNat
          (findFrom raw 32 start).toNat (raw.length + 1) =
          valueScan raw (findFrom raw 32 start).toNat
            (findFrom raw 32 start).toNat := valueScanF_eq (by omega)
      rw [fromDataLoopF, if_neg hsp, hsc, hscan,
        fromDataLoop_eq, if_neg hsp, hscan]
      simp
  | case4 obj start hsp value e hscan he ih =>
    intro fuel hf
    cases fuel with
    | zero => omega
    | succ f =>
      have hsc : valueScanF raw (findFrom raw 32 start).toNat
          (findFrom raw 32 start).toNat (raw.length + 1) =
          valueScan raw (findFrom raw 32 start).toNat
            (findFrom raw 32 start).toNat := valueScanF_eq (by omega)
      have hb := findFrom_ne_neg_one hsp
      have hv := valueScan_bounds hscan he
      have hrec : raw.length - (e.toNat + 1) < f := by omega
      rw [fromDataLoopF, if_neg hsp, hsc, hscan,
        fromDataLoop_eq, if_neg hsp, hscan]
      dsimp only
      rw [if_neg he, if_neg he]
      exact ih hrec

/-- Kernel-reducible form of `KeyValueStore.from_data`
(see `from_data_eq_exec`). -/
def fromDataExec (raw : Bytes) : Except PyErr KV :=
  fromDataLoopF raw [] 0 (raw.length + 1)

theorem from_data_eq_exec (raw : Bytes) :
    KeyValueStore.from_data raw = fromDataExec raw :=
  (fromDataLoopF_eq (by omega)).symm

/-- The list comprehension inside `KeyValueStore.serialize`: each entry
becomes `key + b' ' + value.replace(b'\n', b'\n ')`.  A list value has
no `.replace` method, so Python raises `AttributeError` there. -/
def serializeItems : KV → Except PyErr (List Bytes)
  | [] => .ok []
  | (k, Value.scalar v) :: rest =>
    match serializeItems rest with
    | .ok r => .ok ((k ++ [32] ++ escapeNl v) :: r)
    | .error err => .error err
  | (_, Value.list _) :: _ => .error .attributeError

/-- `KeyValueStore.serialize` (binary form): join the rendered entries
with single newlines. -/
def KeyValueStore.serialize (m : KV) : Except PyErr Bytes :=
  match serializeItems m with
  | .ok items => .ok (List.intercalate [10] items)
  | .error err => .error err

/-- Readable notation for concrete byte buffers: the bytes of an ASCII
string literal. -/
def byteStr (s : String) : Bytes := s.data.map Char.toNat

/-- The keys of the store, in iteration order. -/
def keysOf (m : KV) : List Bytes := m.map Prod.fst

/-- Dictionary lookup (`self[key]`, `key in self`). -/
def getVal : KV → Bytes → Option Value
  | [], _ => none
  | (k₀, v₀) :: rest, k => if k₀ = k then some v₀ else getVal rest k

/-- Run a sequence of `__setitem__` insertions on an empty store. -/
def applyOps (ops : List (Bytes × Bytes)) : KV :=
  ops.foldl (fun m p => setItem m p.1 p.2) []

/-- The values inserted under key `k`, in insertion order. -/
def valuesOf (ops : List (Bytes × Bytes)) (k : Bytes) : List Bytes :=
  (ops.filter (fun p => p.1 = k)).map Prod.snd

/-- The shape the store gives a key's insertions: no insertion is
absence, a single insertion is the bare value, two or more insertions
are the flat list of values. -/
def shapeOf : List Bytes → Option Value
  | [] => none
  | [v] => some (Value.scalar v)
  | vs => some (Value.list vs)

/-- The distinct keys of a sequence, in first-occurrence order. -/
def firstKeys : List Bytes → List Bytes
  | [] => []
  | k :: rest => k :: (firstKeys rest).filter (fun k₀ => k₀ ≠ k)

theorem getVal_setItem_self (m : KV) (k : Bytes) (v : Bytes) :
    getVal (setItem m k v) k = some
      (match getVal m k with
        | none => Value.scalar v
        | some (Value.scalar w) => Value.list [w, v]
        | some (Value.list ws) => Value.list (ws ++ [v])) := by
  induction m with
  | nil => simp [setItem, getVal]
  | cons p rest ih =>
    obtain ⟨k₀, v₀⟩ := p
    by_cases hk : k₀ = k
    · subst hk
      cases v₀ <;> simp [setItem, getVal]
    · simp [setItem, getVal, hk, ih]

theorem keysOf_nil : keysOf [] = [] := rfl

theorem keysOf_cons (p : Bytes × Value) (rest : KV) :
    keysOf (p :: rest) = p.1 :: keysOf rest := rfl

theorem getVal_setItem_ne (m : KV) {k k' : Bytes} (v : Bytes) (h : k' ≠ k) :
    getVal (setItem m k v) k' = getVal m k' := by
  have h' : ¬ (k = k') := fun hc => h hc.symm
  induction m with
  | nil => simp [setItem, getVal, h']
  | cons p rest ih =>
    obtain ⟨k₀, v₀⟩ := p
    by_cases hk : k₀ = k
    · subst hk
      simp [setItem, getVal, h']
    · simp [setItem, getVal, hk, ih]

theorem getVal_isSome_iff_mem (m : KV) (k : Bytes) :
    (getVal m k).isSome ↔ k ∈ keysOf m := by
  induction m with
  | nil => simp [getVal, keysOf]
  | cons p rest ih =>
    obtain ⟨k₀, v₀⟩ := p
    by_cases hk : k₀ = k
    · subst hk
      simp [getVal, keysOf_cons]
    · have hk' : ¬ (k = k₀) := fun hc => hk hc.symm
      rw [getVal, if_neg hk, ih, keysOf_cons]
      simp [List.mem_cons, hk']

theorem keysOf_setItem (m : KV) (k : Bytes) (v : Bytes) :
    keysOf (setItem m k v) =
      if k ∈ keysOf m then keysOf m else keysOf m ++ [k] := by
  induction m with
  | nil => simp [setItem, keysOf]
  | cons p rest ih =>
    obtain ⟨k₀, v₀⟩ := p
    by_cases hk : k₀ = k
    · subst hk
      simp [setItem, keysOf_cons]
    · have hk' : ¬ (k = k₀) := fun hc => hk hc.symm
      simp only [setItem]
      rw [if_neg hk, keysOf_cons, keysOf_cons, ih]
      have hm : (k ∈ k₀ :: keysOf rest) ↔ k ∈ keysOf rest := by
        simp [List.mem_cons, hk']
      by_cases hmem : k ∈ keysOf rest
      · rw [if_pos hmem, if_pos (hm.mpr hmem)]
      · rw [if_neg hmem, if_neg (fun hc => hmem (hm.mp hc))]
        simp

theorem mem_firstKeys {l : List Bytes} {a : Bytes} :
    a ∈ firstKeys l ↔ a ∈ l := by
  induction l with
  | nil => simp [firstKeys]
  | cons k rest ih =>
    by_cases ha : a = k
    · simp [firstKeys, ha]
    · simp [firstKeys, ha, ih]

theorem firstKeys_append_singleton (l : List Bytes) (k : Bytes) :
    firstKeys (l ++ [k]) =
      if k ∈ l then firstKeys l else firstKeys l ++ [k] := by
  induction l with
  | nil => simp [firstKeys]
  | cons k₀ rest ih =>
    rw [List.cons_append, firstKeys, ih]
    by_cases hk : k = k₀
    · subst hk
      by_cases hmem : k ∈ rest
      · simp [firstKeys, hmem]
      · simp [firstKeys, hmem, List.filter_append]
    · by_cases hmem : k ∈ rest
      · simp [firstKeys, hmem, List.mem_cons, hk]
      · simp [firstKeys, hmem, List.mem_cons, hk, List.filter_append]

theorem shapeOf_append (vs : List Bytes) (v : Bytes) :
    shapeOf (vs ++ [v]) = some
      (match shapeOf vs with
        | none => Value.scalar v
        | some (Value.scalar w) => Value.list [w, v]
        | some (Value.list ws) => Value.list (ws ++ [v])) := by
  match vs with
  | [] => rfl
  | [w] => rfl
  | w₁ :: w₂ :: rest => rfl

/-- Master invariant for `KeyValueStore.__setitem__`: after any sequence
of insertions starting from the empty store, every key holds exactly the
shape of its inserted values, and the keys iterate in first-insertion
order. -/
theorem applyOps_spec (ops : List (Bytes × Bytes)) :
    (∀ k, getVal (applyOps ops) k = shapeOf (valuesOf ops k)) ∧
      keysOf (applyOps ops) = firstKeys (ops.map Prod.fst) := by
  induction ops using List.reverseRecOn with
  | nil => exact ⟨fun k => rfl, rfl⟩
  | append_singleton ops p ih =>
    obtain ⟨k₀, v₀⟩ := p
    have happ : applyOps (ops ++ [(k₀, v₀)]) = setItem (applyOps ops) k₀ v₀ := by
      simp [applyOps]
    constructor
    · intro k
      by_cases hk : k = k₀
      · subst hk
        rw [happ, getVal_setItem_self, ih.1 k]
        have hval : valuesOf (ops ++ [(k, v₀)]) k = valuesOf ops k ++ [v₀] := by
          simp [valuesOf]
        rw [hval, shapeOf_append]
      · have hkk : ¬ (k₀ = k) := fun hc => hk hc.symm
        rw [happ, getVal_setItem_ne _ _ hk]
        have hval : valuesOf (ops ++ [(k₀, v₀)]) k = valuesOf ops k := by
          simp [valuesOf, hkk]
        rw [hval, ih.1 k]
    · rw [happ, keysOf_setItem, ih.2, List.map_append, List.map_cons,
        List.map_nil, firstKeys_append_singleton]
      by_cases hmem : k₀ ∈ ops.map Prod.fst
      · rw [if_pos (mem_firstKeys.mpr hmem), if_pos hmem]
      · rw [if_neg (fun hc => hmem (mem_firstKeys.mp hc)), if_neg hmem]

/-- C9: a single insertion under a key stores the bare value, n ≥ 2
insertions under a key (in any interleaving with other keys) accumulate
into the flat ordered list of the inserted values in insertion order
(that is exactly `shapeOf` of the insertion sequence restricted to the
key), and iteration visits keys in first-insertion order, which later
repeated insertions do not change. -/
theorem claim_C9_setitem_shape_and_order (ops : List (Bytes × Bytes)) (k : Bytes) :
    getVal (applyOps ops) k = shapeOf (valuesOf ops k) ∧
      keysOf (applyOps ops) = firstKeys (ops.map Prod.fst) :=
  ⟨(applyOps_spec ops).1 k, (applyOps_spec ops).2⟩

theorem findAux_eq_none {l : Bytes} {b : Nat} (h : b ∉ l) :
    findAux l b = none := by
  induction l with
  | nil => rfl
  | cons x xs ih =>
    simp only [List.mem_cons, not_or] at h
    have hx : ¬ (x = b) := fun hc => h.1 hc.symm
    simp [findAux, hx, ih h.2]

/-- C10: a buffer containing no ASCII space parses to the empty
multimap without an error. -/
theorem claim_C10_no_space_empty (raw : Bytes) (h : ∀ b ∈ raw, b ≠ 32) :
    KeyValueStore.from_data raw = .ok [] := by
  unfold KeyValueStore.from_data
  rw [fromDataLoop_eq, if_pos]
  unfold findFrom
  rw [findAux_eq_none (by intro hmem; exact h 32 (by simpa using hmem) rfl)]

theorem claim_C10_witness :
    KeyValueStore.from_data (byteStr ("abc")) = .ok [] :=
  claim_C10_no_space_empty _ (by decide)

/-- C4: evaluating the parser at the header text `"a x\nb y\na z\n"` of
the claim: the third iteration's value scan finds the final newline at
the last index and the end-of-file test `raw[end + 1] != ord(' ')`
raises `IndexError`, so no multimap is returned at all. -/
theorem claim_C4_trailing_newline_indexerror :
    KeyValueStore.from_data (byteStr ("a x\nb y\na z\n")) = .error .indexError := by
  rw [from_data_eq_exec]
  decide

/-- C6: parsing the multiline example maps `author` to
`"Foo\nmultiline\ncontinued"`: the single leading space of each
continuation line is stripped, the newlines between lines kept. -/
theorem claim_C6_multiline_continuation :
    (KeyValueStore.from_data
        (byteStr ("tree abc\nauthor Foo\n multiline\n continued\n\ncommit msg"))).map
      (fun m => getVal m (byteStr ("author"))) =
      .ok (some (Value.scalar (byteStr ("Foo\nmultiline\ncontinued")))) := by
  rw [from_data_eq_exec]
  decide

/-- C5 counterexample: the trailing free-text block `"commit msg"` after
the blank line is not left unkeyed: parsing the example yields a third
key `"\ncommit"` besides `tree` and `author`, refuting the claim that no
other key is created. -/
theorem claim_C5_counterexample :
    (KeyValueStore.from_data
        (byteStr ("tree abc\nauthor Foo\n multiline\n continued\n\ncommit msg"))).map keysOf =
      .ok [byteStr ("tree"), byteStr ("author"), byteStr ("\ncommit")] ∧
    byteStr ("\ncommit") ≠ byteStr ("tree") ∧
    byteStr ("\ncommit") ≠ byteStr ("author") := by
  rw [from_data_eq_exec]
  exact ⟨by decide, by decide, by decide⟩

/-- C5 amended: the trailing free-text block is not passed through as
part of the final value; once the blank line ends the `author` value,
the remaining text is parsed as a further key/value pair, so the example
parses to exactly the three entries
`tree ↦ abc`, `author ↦ "Foo\nmultiline\ncontinued"`, `"\ncommit" ↦ msg`. -/
theorem claim_C5_amended_tail_becomes_key :
    KeyValueStore.from_data
        (byteStr ("tree abc\nauthor Foo\n multiline\n continued\n\ncommit msg")) =
      .ok [(byteStr ("tree"), Value.scalar (byteStr ("abc"))),
        (byteStr ("author"), Value.scalar (byteStr ("Foo\nmultiline\ncontinued"))),
        (byteStr ("\ncommit"), Value.scalar (byteStr ("msg")))] := by
  rw [from_data_eq_exec]
  decide

/-- C2 counterexample: the multimap produced by parsing
`"a x\nb y\na z"` holds the list `[x, z]` under the duplicated key `a`,
and `serialize` raises `AttributeError` on it (a Python `list` has no
`.replace`), so `parse (serialize M) = M` fails for this
parse-producible `M`. -/
theorem claim_C2_counterexample :
    KeyValueStore.from_data (byteStr ("a x\nb y\na z")) =
      .ok [(byteStr ("a"), Value.list [byteStr ("x"), byteStr ("z")]),
        (byteStr ("b"), Value.scalar (byteStr ("y")))] ∧
    KeyValueStore.serialize
        [(byteStr ("a"), Value.list [byteStr ("x"), byteStr ("z")]),
          (byteStr ("b"), Value.scalar (byteStr ("y")))] =
      .error .attributeError := by
  constructor
  · rw [from_data_eq_exec]
    decide
  · decide

/-! ## The object model and object store of `lib.py` -/

/-- The four object variants registered in `GIT_OBJECTS`. -/
inductive GitKind where
  | commit
  | tree
  | tag
  | blob
  deriving Repr, DecidableEq

/-- The type tags. `GitBlob.__init__` sets `self.fmt = b'blob'`; the
other three variants never reach a use of `fmt` because their
`serialize` raises first, so giving them their registry tag here is
harmless. -/
def tagBytes : GitKind → Bytes
  | .commit => byteStr ("commit")
  | .tree => byteStr ("tree")
  | .tag => byteStr ("tag")
  | .blob => byteStr ("blob")

/-- The `GIT_OBJECTS` registry lookup `GIT_OBJECTS.get(fmt)`. -/
def kindOfTag (fmt : Bytes) : Option GitKind :=
  if fmt = byteStr ("commit") then some .commit
  else if fmt = byteStr ("tree") then some .tree
  else if fmt = byteStr ("tag") then some .tag
  else if fmt = byteStr ("blob") then some .blob
  else none

/-- The state of a constructed git object.  Only `GitBlob` stores
payload data (`blob_data`, `None` when the constructor got falsy data);
`GitCommit`, `GitTree` and `GitTag` are empty `pass` subclasses. -/
structure GitObjState where
  kind : GitKind
  blob_data : Option Bytes
  deriving Repr, DecidableEq

/-- Construction `c(repo, data)`.  `GitObj.__init__` runs
`if data: self.data = self.deserialize(data)`; for `GitBlob`,
`deserialize` stores the bytes, while the three `pass` variants inherit
`GitObj.deserialize`, which raises `NotImplementedError`.  With falsy
(empty) data, `deserialize` is never called. -/
def gitObjNew (kind : GitKind) (data : Bytes) : Except PyErr GitObjState :=
  match kind with
  | .blob => .ok ⟨.blob, if data = [] then none else some data⟩
  | k => if data = [] then .ok ⟨k, none⟩ else .error .notImplementedError

/-- `serialize()`: `GitBlob.serialize` returns `blob_data` (possibly
`None`); the other variants raise `NotImplementedError`. -/
def serializeObj (o : GitObjState) : Except PyErr (Option Bytes) :=
  match o.kind with
  | .blob => .ok o.blob_data
  | _ => .error .notImplementedError

/-- `str(n).encode()` for a natural number, via the usual
divide-by-ten expansion; the fuel argument only bounds the recursion
depth and `n + 1` always suffices. -/
def natDecDigitsAux : Nat → Nat → Bytes
  | 0, _ => []
  | fuel + 1, n =>
    if n < 10 then [48 + n]
    else natDecDigitsAux fuel (n / 10) ++ [48 + n % 10]

/-- `str(n).encode()`: the ASCII decimal digits of `n`. -/
def natDecDigits (n : Nat) : Bytes := natDecDigitsAux (n + 1) n

/-- `GitObj.header`: `self.fmt + ASCII_SPACE + str(len(data)).encode()
+ NULL_SEP + data` with `data = self.serialize()`; when `serialize()`
returns `None`, `len(data)` raises `TypeError`. -/
def GitObj.header (o : GitObjState) : Except PyErr Bytes :=
  match serializeObj o with
  | .error e => .error e
  | .ok none => .error .typeError
  | .ok (some data) =>
    .ok (tagBytes o.kind ++ [32] ++ natDecDigits data.length ++ [0] ++ data)

/-- The repository's object directory, as a map from path to the bytes
of the file stored there. -/
def Store := String → Option Bytes

/-- Writing one file. -/
def storeWrite (st : Store) (p : String) (content : Bytes) : Store :=
  fun q => if q = p then some content else st q

/-- The path `objects/<sha[0:2]>/<sha[2:]>` that `GitObj.write` and
`GitRepository.object_read` both build through `repo_file` (relative to
the git directory). -/
def objPath (sha : String) : String :=
  "objects/" ++ (sha.take 2) ++ "/" ++ (sha.drop 2)

/-- `GitObj.write`: the digest is `hashlib.sha1(self.header).hexdigest()`
— `sha1hex` is the parameter standing for that library function, and
`compress` stands for `zlib.compress`.  Unless `skip_write` is set, the
compressed header is stored at the object path.  Returns the digest and
the resulting store. -/
def GitObj.write (sha1hex : Bytes → String) (compress : Bytes → Bytes)
    (o : GitObjState) (skip_write : Bool) (st : Store) :
    Except PyErr (String × Store) :=
  match GitObj.header o with
  | .error e => .error e
  | .ok h =>
    if skip_write then .ok (sha1hex h, st)
    else .ok (sha1hex h, storeWrite st (objPath (sha1hex h)) (compress h))

/-- Resolve a Python slice/`find` boundary index: a negative index
counts from the end (clamped at zero), a non-negative one is clamped at
the length. -/
def pyBound (len : Nat) (i : Int) : Nat :=
  if i < 0 then (len + i).toNat else min i.toNat len

/-- Python `raw[a:b]` for arbitrary (possibly negative) bounds. -/
def pySliceI (l : Bytes) (a b : Int) : Bytes :=
  (l.take (pyBound l.length b)).drop (pyBound l.length a)

/-- Python `raw.find(bytes([b]), s)` for an arbitrary start index. -/
def findFromI (l : Bytes) (b : Nat) (s : Int) : Int :=
  findFrom l b (pyBound l.length s)

/-- Python ASCII whitespace accepted by `int(...)`. -/
def isPyWs (b : Nat) : Bool :=
  b = 32 || b = 9 || b = 10 || b = 13 || b = 11 || b = 12

/-- Numeric value of a list of ASCII decimal digits. -/
def decDigitsVal (l : Bytes) : Nat :=
  l.foldl (fun a d => a * 10 + (d - 48)) 0

/-- Is every byte an ASCII decimal digit? -/
def allDecDigits (l : Bytes) : Bool :=
  l.all (fun d => 48 ≤ d && d ≤ 57)

/-- `int(s.decode("ascii"))` as `object_read` uses it: optional
surrounding ASCII whitespace, an optional sign, then at least one
decimal digit; any other input raises (a decode error or `ValueError`,
both modelled as `valueError`). -/
def pyInt (s : Bytes) : Except PyErr Int :=
  match ((s.dropWhile isPyWs).reverse.dropWhile isPyWs).reverse with
  | [] => .error .valueError
  | c :: r =>
    if c = 45 then
      if r.isEmpty then .error .valueError
      else if allDecDigits r then .ok (-(decDigitsVal r : Int))
      else .error .valueError
    else if c = 43 then
      if r.isEmpty then .error .valueError
      else if allDecDigits r then .ok (decDigitsVal r)
      else .error .valueError
    else if allDecDigits (c :: r) then .ok (decDigitsVal (c :: r))
    else .error .valueError

/-- `GitRepository.object_read`: read the file at the object path (a
missing file surfaces as the propagated `FileNotFoundError`), decompress
it (`decompress` models `zlib.decompress`, `none` a `zlib.error`), split
the framed header at the first space and the following null byte, check
the declared length against the remaining bytes (`corruptObject` models
the raised `Exception("Malformed object ...: bad length")`), and
dispatch on the type tag through `GIT_OBJECTS`
(`unknownObjectType` models the raised `ValueError`). -/
def object_read (decompress : Bytes → Option Bytes) (st : Store)
    (sha : String) : Except PyErr GitObjState :=
  match st (objPath sha) with
  | none => .error .fileNotFound
  | some file =>
    match decompress file with
    | none => .error .zlibError
    | some raw =>
      let x : Int := findFrom raw 32 0
      let fmt := pySliceI raw 0 x
      let y : Int := findFromI raw 0 x
      match pyInt (pySliceI raw x y) with
      | .error e => .error e
      | .ok size =>
        if size ≠ (raw.length : Int) - y - 1 then .error .corruptObject
        else
          match kindOfTag fmt with
          | none => .error .unknownObjectType
          | some k => gitObjNew k (pySliceI raw (y + 1) raw.length)

/-- The pipeline of claim C1: construct variant `k` from payload `P`,
write it (`ObjectStore.write`), read it back by the returned digest and
serialize the reconstructed object. -/
def writeReadSerialize (sha1hex : Bytes → String) (compress : Bytes → Bytes)
    (decompress : Bytes → Option Bytes) (st : Store) (k : GitKind)
    (P : Bytes) : Except PyErr (Option Bytes) :=
  match gitObjNew k P with
  | .error e => .error e
  | .ok o =>
    match GitObj.write sha1hex compress o false st with
    | .error e => .error e
    | .ok (sha, st₂) =>
      match object_read decompress st₂ sha with
      | .error e => .error e
      | .ok o₂ => serializeObj o₂

/-! ## Decimal digits, `pyInt`, and framed-header reading lemmas -/

theorem natDecDigitsAux_mem {fuel : Nat} :
    ∀ {n : Nat}, n < fuel → ∀ d ∈ natDecDigitsAux fuel n, 48 ≤ d ∧ d ≤ 57 := by
  induction fuel with
  | zero => omega
  | succ f ih =>
    intro n hn d hd
    rw [natDecDigitsAux] at hd
    by_cases h10 : n < 10
    · rw [if_pos h10] at hd
      simp at hd
      omega
    · rw [if_neg h10] at hd
      rcases List.mem_append.mp hd with hmem | hmem
      · exact ih (by omega : n / 10 < f) d hmem
      · simp at hmem
        have := Nat.mod_lt n (show 0 < 10 by omega)
        omega

theorem decDigitsVal_append_singleton (l : Bytes) (d : Nat) :
    decDigitsVal (l ++ [d]) = decDigitsVal l * 10 + (d - 48) := by
  simp [decDigitsVal, List.foldl_append]

theorem natDecDigitsAux_val {fuel : Nat} :
    ∀ {n : Nat}, n < fuel → decDigitsVal (natDecDigitsAux fuel n) = n := by
  induction fuel with
  | zero => omega
  | succ f ih =>
    intro n hn
    rw [natDecDigitsAux]
    by_cases h10 : n < 10
    · rw [if_pos h10]
      simp [decDigitsVal]
    · rw [if_neg h10, decDigitsVal_append_singleton, ih (by omega : n / 10 < f)]
      omega

theorem natDecDigitsAux_ne_nil {fuel n : Nat} (hn : n < fuel) :
    natDecDigitsAux fuel n ≠ [] := by
  cases fuel with
  | zero => omega
  | succ f =>
    rw [natDecDigitsAux]
    by_cases h10 : n < 10
    · simp [if_pos h10]
    · simp [if_neg h10]

theorem natDecDigits_mem {n : Nat} : ∀ d ∈ natDecDigits n, 48 ≤ d ∧ d ≤ 57 :=
  natDecDigitsAux_mem (Nat.lt_succ_self n)

theorem natDecDigits_val (n : Nat) : decDigitsVal (natDecDigits n) = n :=
  natDecDigitsAux_val (Nat.lt_succ_self n)

theorem natDecDigits_ne_nil (n : Nat) : natDecDigits n ≠ [] :=
  natDecDigitsAux_ne_nil (Nat.lt_succ_self n)

theorem isPyWs_false_of_digit {d : Nat} (h : 48 ≤ d ∧ d ≤ 57) :
    isPyWs d = false := by
  simp only [isPyWs, Bool.or_eq_false_iff, decide_eq_false_iff_not]
  omega

theorem dropWhile_eq_self_of_all {l : Bytes}
    (h : ∀ d ∈ l, isPyWs d = false) : l.dropWhile isPyWs = l := by
  cases l with
  | nil => rfl
  | cons x xs => simp [List.dropWhile_cons, h x (by simp)]

/-- `int(b' ' + str(n))` parses back to `n`: Python's `int` ignores the
leading space, and the digit string denotes `n`. -/
theorem pyInt_space_digits (n : Nat) : pyInt ([32] ++ natDecDigits n) = .ok n := by
  have hall : ∀ d ∈ natDecDigits n, isPyWs d = false :=
    fun d hd => isPyWs_false_of_digit (natDecDigits_mem d hd)
  have hallrev : ∀ d ∈ (natDecDigits n).reverse, isPyWs d = false :=
    fun d hd => hall d (List.mem_reverse.mp hd)
  have hstrip : ((([32] ++ natDecDigits n).dropWhile
      isPyWs).reverse.dropWhile isPyWs).reverse = natDecDigits n := by
    rw [List.cons_append, List.nil_append, List.dropWhile_cons]
    simp only [show isPyWs 32 = true from rfl, if_true]
    rw [dropWhile_eq_self_of_all hall, dropWhile_eq_self_of_all hallrev,
      List.reverse_reverse]
  rw [pyInt]
  cases hdig : natDecDigits n with
  | nil => exact absurd hdig (natDecDigits_ne_nil n)
  | cons c r =>
    rw [hdig] at hstrip
    rw [hstrip]
    dsimp only
    have hc : 48 ≤ c ∧ c ≤ 57 := natDecDigits_mem c (by rw [hdig]; simp)
    have hdd : allDecDigits (c :: r) = true := by
      rw [allDecDigits, List.all_eq_true]
      intro d hd
      have := natDecDigits_mem d (by rw [hdig]; exact hd)
      simp only [Bool.and_eq_true, decide_eq_true_eq]
      omega
    rw [if_neg (by omega : ¬ c = 45), if_neg (by omega : ¬ c = 43), if_pos hdd]
    have := natDecDigits_val n
    rw [hdig] at this
    rw [this]

theorem findAux_append_not_mem {C : Bytes} {b : Nat} (R : Bytes) (h : b ∉ C) :
    findAux (C ++ b :: R) b = some C.length := by
  induction C with
  | nil => simp [findAux]
  | cons x xs ih =>
    simp only [List.mem_cons, not_or] at h
    have hx : ¬ (x = b) := fun hc => h.1 hc.symm
    simp [findAux, hx, ih h.2]

theorem findFrom_append {A : Bytes} {b : Nat} {s : Nat} (R : Bytes)
    (hs : s ≤ A.length) (hA : b ∉ A.drop s) :
    findFrom (A ++ b :: R) b s = (A.length : Int) := by
  unfold findFrom
  rw [List.drop_append_of_le_length hs, findAux_append_not_mem R hA]
  simp only [List.length_drop]
  congr 1
  omega

theorem pyBound_ofNat (len n : Nat) : pyBound len (n : Int) = min n len := by
  simp [pyBound]

theorem pySliceI_prefix (A R : Bytes) :
    pySliceI (A ++ R) 0 (A.length : Int) = A := by
  unfold pySliceI
  rw [show ((0 : Int) = ((0 : Nat) : Int)) from rfl, pyBound_ofNat, pyBound_ofNat]
  simp [List.take_left]

theorem pySliceI_mid (A B R : Bytes) :
    pySliceI (A ++ B ++ R) (A.length : Int) ((A.length + B.length : Nat) : Int) = B := by
  unfold pySliceI
  rw [pyBound_ofNat, pyBound_ofNat]
  have hlen : (A ++ B ++ R).length = A.length + B.length + R.length := by
    simp [List.length_append]
    omega
  have h1 : min (A.length + B.length) (A ++ B ++ R).length = A.length + B.length := by
    omega
  have h2 : min A.length (A ++ B ++ R).length = A.length := by omega
  rw [h1, h2]
  have htake : (A ++ B ++ R).take (A.length + B.length) = A ++ B := by
    have := List.take_left (A ++ B) R
    simpa [List.length_append] using this
  rw [htake, List.drop_left]

theorem pySliceI_suffix (A R : Bytes) :
    pySliceI (A ++ R) (A.length : Int) (((A ++ R).length : Nat) : Int) = R := by
  unfold pySliceI
  rw [pyBound_ofNat, pyBound_ofNat]
  have h1 : min (A ++ R).length (A ++ R).length = (A ++ R).length := by omega
  have h2 : min A.length (A ++ R).length = A.length := by
    simp [List.length_append]
  rw [h1, h2, List.take_length, List.drop_left]

/-- Reading any stored object whose decompressed bytes are a framed
header `fmt ++ b' ' ++ str(n) ++ b'\0' ++ payload` (with a space-free
tag): the declared length is checked against the actual payload length,
then the tag is dispatched through the registry. -/
theorem object_read_framed (decompress : Bytes → Option Bytes) (st : Store)
    (sha : String) (file fmt payload : Bytes) (n : Nat)
    (hst : st (objPath sha) = some file)
    (hd : decompress file = some (fmt ++ [32] ++ natDecDigits n ++ [0] ++ payload))
    (hfmt : 32 ∉ fmt) :
    object_read decompress st sha =
      if n ≠ payload.length then .error .corruptObject
      else
        match kindOfTag fmt with
        | none => .error .unknownObjectType
        | some k => gitObjNew k payload := by
  have hdig48 : ∀ d ∈ natDecDigits n, 48 ≤ d ∧ d ≤ 57 := natDecDigits_mem
  simp only [object_read, hst, hd]
  set dig := natDecDigits n with hdigdef
  set raw := fmt ++ [32] ++ dig ++ [0] ++ payload with hraw
  have hassoc1 : raw = fmt ++ (32 :: (dig ++ [0] ++ payload)) := by
    rw [hraw]
    simp [List.append_assoc]
  have hx : findFrom raw 32 0 = (fmt.length : Int) := by
    rw [hassoc1]
    exact findFrom_append _ (Nat.zero_le _) (by simpa using hfmt)
  have hlenraw : raw.length = fmt.length + 1 + dig.length + 1 + payload.length := by
    rw [hraw]
    simp [List.length_append]
    omega
  have hfmtle : fmt.length ≤ raw.length := by omega
  have hassoc2 : raw = (fmt ++ (32 :: dig)) ++ (0 :: payload) := by
    rw [hraw]
    simp [List.append_assoc]
  have hy : findFromI raw 0 (fmt.length : Int) =
      ((fmt.length + 1 + dig.length : Nat) : Int) := by
    rw [findFromI, pyBound_ofNat, min_eq_left hfmtle, hassoc2]
    have hnot : 0 ∉ (fmt ++ 32 :: dig).drop fmt.length := by
      rw [List.drop_left]
      intro hmem
      rcases List.mem_cons.mp hmem with h32 | hdigmem
      · omega
      · have := hdig48 0 hdigmem
        omega
    have hsle : fmt.length ≤ (fmt ++ 32 :: dig).length := by
      rw [List.length_append]
      omega
    have hff := findFrom_append (A := fmt ++ 32 :: dig) (b := 0) (s := fmt.length)
      payload hsle hnot
    rw [hff]
    congr 1
    rw [List.length_append]
    simp
    omega
  have hfmtslice : pySliceI raw 0 (fmt.length : Int) = fmt := by
    have : raw = fmt ++ (32 :: (dig ++ [0] ++ payload)) := hassoc1
    rw [this]
    exact pySliceI_prefix fmt _
  have hassoc3 : raw = fmt ++ (32 :: dig) ++ (0 :: payload) := by
    rw [hassoc2, List.append_assoc]
  have hmidslice : pySliceI raw (fmt.length : Int)
      ((fmt.length + 1 + dig.length : Nat) : Int) = [32] ++ dig := by
    have hmid := pySliceI_mid fmt ([32] ++ dig) (0 :: payload)
    have harg : fmt.length + ([32] ++ dig : Bytes).length =
        fmt.length + 1 + dig.length := by
      rw [List.length_append]
      simp
      omega
    rw [harg] at hmid
    rw [hassoc3]
    have hsame : fmt ++ 32 :: dig ++ 0 :: payload =
        fmt ++ ([32] ++ dig) ++ (0 :: payload) := by simp
    rw [hsame]
    exact hmid
  rw [hx, hy, hfmtslice, hmidslice, pyInt_space_digits]
  dsimp only
  have hsize : ((n : Int) ≠ (raw.length : Int) -
      ((fmt.length + 1 + dig.length : Nat) : Int) - 1) ↔ n ≠ payload.length := by
    constructor
    · intro h hc
      exact h (by omega)
    · intro h hc
      exact h (by omega)
  by_cases hn : n ≠ payload.length
  · rw [if_pos (hsize.mpr hn), if_pos hn]
  · rw [if_neg (fun hc => hn (hsize.mp hc)), if_neg hn]
    have htail : pySliceI raw (((fmt.length + 1 + dig.length : Nat) : Int) + 1)
        ((raw.length : Nat) : Int) = payload := by
      have hlen4 : (fmt ++ [32] ++ dig ++ [0] : Bytes).length =
          fmt.length + 1 + dig.length + 1 := by
        simp [List.length_append]
        omega
      have := pySliceI_suffix (fmt ++ [32] ++ dig ++ [0]) payload
      rw [hlen4] at this
      rw [show (((fmt.length + 1 + dig.length : Nat) : Int) + 1) =
        ((fmt.length + 1 + dig.length + 1 : Nat) : Int) by push_cast; ring]
      rw [hraw]
      have hr2 : (fmt ++ [32] ++ dig ++ [0] ++ payload).length = raw.length := by
        rw [hraw]
      simpa [hr2] using this
    rw [htail]

/-- `int(str(n))` parses the decimal digits back to `n`. -/
theorem pyInt_digits (n : Nat) : pyInt (natDecDigits n) = .ok n := by
  have hall : ∀ d ∈ natDecDigits n, isPyWs d = false :=
    fun d hd => isPyWs_false_of_digit (natDecDigits_mem d hd)
  have hallrev : ∀ d ∈ (natDecDigits n).reverse, isPyWs d = false :=
    fun d hd => hall d (List.mem_reverse.mp hd)
  have hstrip : (((natDecDigits n).dropWhile
      isPyWs).reverse.dropWhile isPyWs).reverse = natDecDigits n := by
    rw [dropWhile_eq_self_of_all hall, dropWhile_eq_self_of_all hallrev,
      List.reverse_reverse]
  rw [pyInt]
  cases hdig : natDecDigits n with
  | nil => exact absurd hdig (natDecDigits_ne_nil n)
  | cons c r =>
    rw [hdig] at hstrip
    rw [hstrip]
    dsimp only
    have hc : 48 ≤ c ∧ c ≤ 57 := natDecDigits_mem c (by rw [hdig]; simp)
    have hdd : allDecDigits (c :: r) = true := by
      rw [allDecDigits, List.all_eq_true]
      intro d hd
      have := natDecDigits_mem d (by rw [hdig]; exact hd)
      simp only [Bool.and_eq_true, decide_eq_true_eq]
      omega
    rw [if_neg (by omega : ¬ c = 45), if_neg (by omega : ¬ c = 43), if_pos hdd]
    have := natDecDigits_val n
    rw [hdig] at this
    rw [this]

/-- C7: reading a stored object whose framed header declares a length
`n` different from the actual payload length raises the corrupt-object
error (`Exception("Malformed object ...: bad length")`); no object is
returned, nothing is truncated or padded. -/
theorem claim_C7_length_mismatch (decompress : Bytes → Option Bytes)
    (st : Store) (sha : String) (file fmt payload : Bytes) (n : Nat)
    (hst : st (objPath sha) = some file)
    (hd : decompress file = some (fmt ++ [32] ++ natDecDigits n ++ [0] ++ payload))
    (hfmt : 32 ∉ fmt)
    (hn : n ≠ payload.length) :
    object_read decompress st sha = .error .corruptObject := by
  rw [object_read_framed decompress st sha file fmt payload n hst hd hfmt,
    if_pos hn]

theorem claim_C7_witness :
    object_read (fun x => some x)
      (fun _ => some (byteStr ("blob 5") ++ [0] ++ byteStr ("hi"))) "aabb" =
      .error .corruptObject := by
  apply claim_C7_length_mismatch (fun x => some x) _ "aabb"
    (byteStr ("blob 5") ++ [0] ++ byteStr ("hi")) (byteStr ("blob"))
    (byteStr ("hi")) 5
  · rfl
  · decide
  · decide
  · decide

/-- C8: reading a stored object whose framed header carries a type tag
outside `{blob, commit, tag, tree}` raises the unknown-object-type
error (`ValueError(f"{fmt} is not a valid format!")`): the tag is
compared against exactly those four registry keys and nothing is
defaulted. -/
theorem claim_C8_unknown_tag (decompress : Bytes → Option Bytes)
    (st : Store) (sha : String) (file fmt payload : Bytes)
    (hst : st (objPath sha) = some file)
    (hd : decompress file =
      some (fmt ++ [32] ++ natDecDigits payload.length ++ [0] ++ payload))
    (hfmt : 32 ∉ fmt)
    (h1 : fmt ≠ byteStr ("commit")) (h2 : fmt ≠ byteStr ("tree"))
    (h3 : fmt ≠ byteStr ("tag")) (h4 : fmt ≠ byteStr ("blob")) :
    object_read decompress st sha = .error .unknownObjectType := by
  rw [object_read_framed decompress st sha file fmt payload payload.length
    hst hd hfmt, if_neg (fun hc => hc rfl)]
  rw [kindOfTag, if_neg h1, if_neg h2, if_neg h3, if_neg h4]

theorem claim_C8_witness :
    object_read (fun x => some x)
      (fun _ => some (byteStr ("foo 2") ++ [0] ++ byteStr ("hi"))) "aabb" =
      .error .unknownObjectType := by
  apply claim_C8_unknown_tag (fun x => some x) _ "aabb"
    (byteStr ("foo 2") ++ [0] ++ byteStr ("hi")) (byteStr ("foo"))
    (byteStr ("hi"))
  · rfl
  · decide
  · decide
  · decide
  · decide
  · decide
  · decide

/-- C1 amended: with `decompress` inverting `compress`, the write/read
round trip holds for blobs with a non-empty payload; for
commit/tree/tag the claimed pipeline cannot even start, because
constructing the object from a non-empty payload raises
`NotImplementedError` (their `deserialize` is not implemented), and a
blob constructed from the empty payload fails on write with `TypeError`
(its `blob_data` stays `None`, so `len(self.serialize())` is
`len(None)`). -/
theorem claim_C1_amended_blob_roundtrip (sha1hex : Bytes → String)
    (compress : Bytes → Bytes) (decompress : Bytes → Option Bytes)
    (st : Store) (P : Bytes) (hP : P ≠ [])
    (hzlib : ∀ x, decompress (compress x) = some x) :
    writeReadSerialize sha1hex compress decompress st .blob P = .ok (some P) ∧
    (∀ k, k ≠ GitKind.blob → gitObjNew k P = .error .notImplementedError) ∧
    writeReadSerialize sha1hex compress decompress st .blob [] =
      .error .typeError := by
  refine ⟨?_, ?_, rfl⟩
  · have hobj : gitObjNew .blob P = .ok ⟨.blob, some P⟩ := by
      simp [gitObjNew, hP]
    have hser : serializeObj ⟨.blob, some P⟩ = .ok (some P) := rfl
    have hh : GitObj.header ⟨GitKind.blob, some P⟩ =
        .ok (tagBytes .blob ++ [32] ++ natDecDigits P.length ++ [0] ++ P) := rfl
    have hwrite : GitObj.write sha1hex compress ⟨.blob, some P⟩ false st =
        .ok (sha1hex (tagBytes .blob ++ [32] ++ natDecDigits P.length ++ [0] ++ P),
          storeWrite st
            (objPath (sha1hex (tagBytes .blob ++ [32] ++ natDecDigits P.length
              ++ [0] ++ P)))
            (compress (tagBytes .blob ++ [32] ++ natDecDigits P.length
              ++ [0] ++ P))) := by
      simp [GitObj.write, hh]
    have hread : object_read decompress
        (storeWrite st
          (objPath (sha1hex (tagBytes .blob ++ [32] ++ natDecDigits P.length
            ++ [0] ++ P)))
          (compress (tagBytes .blob ++ [32] ++ natDecDigits P.length
            ++ [0] ++ P)))
        (sha1hex (tagBytes .blob ++ [32] ++ natDecDigits P.length ++ [0] ++ P)) =
        .ok ⟨.blob, some P⟩ := by
      rw [object_read_framed _ _ _
        (compress (tagBytes .blob ++ [32] ++ natDecDigits P.length ++ [0] ++ P))
        (tagBytes .blob) P P.length (by simp [storeWrite]) (hzlib _) (by decide)]
      rw [if_neg (fun hc => hc rfl)]
      have hk : kindOfTag (tagBytes .blob) = some .blob := by decide
      rw [hk]
      simp [gitObjNew, hP]
    rw [writeReadSerialize, hobj]
    dsimp only
    rw [hwrite]
    dsimp only
    rw [hread]
    rfl
  · intro k hk
    cases k with
    | blob => exact absurd rfl hk
    | commit => simp [gitObjNew, hP]
    | tree => simp [gitObjNew, hP]
    | tag => simp [gitObjNew, hP]

theorem claim_C1_witness :
    writeReadSerialize (fun _ => "d1e2") (fun x => x) (fun x => some x)
      (fun _ => none) .blob (byteStr ("hello")) =
      .ok (some (byteStr ("hello"))) :=
  (claim_C1_amended_blob_roundtrip (fun _ => "d1e2") (fun x => x)
    (fun x => some x) (fun _ => none) (byteStr ("hello")) (by decide)
    (fun x => rfl)).1

/-- C1 counterexample: the claim fails as stated: constructing a commit
from the payload `b"tree abc"` raises `NotImplementedError` before
anything can be written, and the blob round trip fails for the empty
payload with `TypeError`, under the identity compression model. -/
theorem claim_C1_counterexample :
    writeReadSerialize (fun _ => "d1e2") (fun x => x) (fun x => some x)
      (fun _ => none) .commit (byteStr ("tree abc")) =
      .error .notImplementedError ∧
    writeReadSerialize (fun _ => "d1e2") (fun x => x) (fun x => some x)
      (fun _ => none) .blob [] = .error .typeError :=
  ⟨rfl, rfl⟩

/-- C3: the digest `GitObj.write` returns — with or without
`skip_write` and regardless of the store — is the SHA-1 hex digest
(modelled by the `sha1hex` parameter) of exactly the framed header
`type-name ++ b' ' ++ str(len(payload)) ++ b'\0' ++ payload`; the
length field really denotes the payload's byte length (`int` parses it
back); and any two objects with equal type name and equal serialized
payload get equal digests. -/
theorem claim_C3_digest (sha1hex : Bytes → String) (compress : Bytes → Bytes)
    (o : GitObjState) (d : Bytes) (st : Store)
    (h : serializeObj o = .ok (some d)) :
    GitObj.write sha1hex compress o true st =
      .ok (sha1hex (tagBytes o.kind ++ [32] ++ natDecDigits d.length ++ [0] ++ d),
        st) ∧
    (GitObj.write sha1hex compress o false st).map Prod.fst =
      .ok (sha1hex (tagBytes o.kind ++ [32] ++ natDecDigits d.length ++ [0] ++ d)) ∧
    pyInt (natDecDigits d.length) = .ok (d.length) ∧
    (∀ (o₂ : GitObjState) (st₂ : Store) (b₁ b₂ : Bool),
      serializeObj o₂ = .ok (some d) → o₂.kind = o.kind →
      (GitObj.write sha1hex compress o₂ b₂ st₂).map Prod.fst =
        (GitObj.write sha1hex compress o b₁ st).map Prod.fst) := by
  have hh : GitObj.header o =
      .ok (tagBytes o.kind ++ [32] ++ natDecDigits d.length ++ [0] ++ d) := by
    simp [GitObj.header, h]
  refine ⟨by simp [GitObj.write, hh], by simp [GitObj.write, hh, Except.map],
    pyInt_digits d.length, ?_⟩
  intro o₂ st₂ b₁ b₂ h₂ hkind
  have hh₂ : GitObj.header o₂ =
      .ok (tagBytes o.kind ++ [32] ++ natDecDigits d.length ++ [0] ++ d) := by
    simp [GitObj.header, h₂, hkind]
  cases b₁ <;> cases b₂ <;> simp [GitObj.write, hh, hh₂, Except.map]

theorem claim_C3_witness :
    GitObj.write (fun _ => "z") (fun x => x) ⟨.blob, some [104, 105]⟩ true
      (fun _ => none) = .ok ("z", fun _ => none) ∧
    pyInt (natDecDigits 2) = .ok 2 := by
  have h := claim_C3_digest (fun _ => "z") (fun x => x)
    ⟨.blob, some [104, 105]⟩ [104, 105] (fun _ => none) rfl
  exact ⟨h.1, h.2.2.1⟩

/-! ## Round-trip infrastructure for the header-text format -/

theorem findAux_append (X Y : Bytes) (b : Nat) :
    findAux (X ++ Y) b =
      match findAux X b with
      | some i => some i
      | none => (findAux Y b).map (· + X.length) := by
  induction X with
  | nil => simp [findAux]
  | cons x xs ih =>
    rw [List.cons_append, findAux, findAux]
    by_cases hx : x = b
    · rw [if_pos hx, if_pos hx]
    · rw [if_neg hx, if_neg hx, ih]
      cases hxs : findAux xs b with
      | some i => simp
      | none =>
        cases hy : findAux Y b with
        | some j => simp [Nat.add_assoc]
        | none => simp

theorem findFrom_of_ge_length {l : Bytes} {b : Nat} {s : Nat}
    (h : l.length ≤ s) : findFrom l b s = -1 := by
  unfold findFrom
  rw [List.drop_eq_nil_of_le h]
  rfl

theorem sliceN_mid (A B R : Bytes) :
    sliceN (A ++ B ++ R) A.length (A.length + B.length) = B := by
  unfold sliceN
  have htake : (A ++ B ++ R).take (A.length + B.length) = A ++ B := by
    have := List.take_left (A ++ B) R
    simpa [List.length_append] using this
  rw [htake, List.drop_left]

theorem sliceN_to_length (l : Bytes) (a : Nat) :
    sliceN l a l.length = l.drop a := by
  unfold sliceN
  rw [List.take_length]

theorem getD_append_left {X Y : Bytes} {i : Nat} (h : i < X.length) :
    (X ++ Y).getD i 0 = X.getD i 0 := by
  rw [List.getD_eq_getElem?_getD, List.getD_eq_getElem?_getD,
    List.getElem?_append, if_pos h]

theorem getD_append_right {X Y : Bytes} {i : Nat} (h : X.length ≤ i) :
    (X ++ Y).getD i 0 = Y.getD (i - X.length) 0 := by
  rw [List.getD_eq_getElem?_getD, List.getD_eq_getElem?_getD,
    List.getElem?_append, if_neg (by omega)]

theorem escapeNl_ne_nil {v : Bytes} (h : v ≠ []) : escapeNl v ≠ [] := by
  cases v with
  | nil => exact absurd rfl h
  | cons b rest =>
    rw [escapeNl]
    by_cases hb : b = 10
    · simp [hb]
    · simp [hb]

theorem unescapeNl_escapeNl (v : Bytes) : unescapeNl (escapeNl v) = v := by
  induction v with
  | nil => rfl
  | cons b rest ih =>
    rw [escapeNl]
    by_cases hb : b = 10
    · rw [if_pos hb, unescapeNl, if_pos ⟨rfl, rfl⟩, ih, hb]
    · rw [if_neg hb]
      cases hE : escapeNl rest with
      | nil =>
        have : rest = [] := by
          by_contra hne
          exact escapeNl_ne_nil hne hE
        rw [this]
        rfl
      | cons c E =>
        rw [unescapeNl, if_neg (fun hc => hb hc.1), ← hE, ih]

theorem escapeNl_nl_followed (v : Bytes) :
    ∀ i, i < (escapeNl v).length → (escapeNl v).getD i 0 = 10 →
      i + 1 < (escapeNl v).length ∧ (escapeNl v).getD (i + 1) 0 = 32 := by
  induction v with
  | nil => intro i hi; simp [escapeNl] at hi
  | cons b rest ih =>
    intro i hi h10
    rw [escapeNl] at hi h10 ⊢
    by_cases hb : b = 10
    · rw [if_pos hb] at hi h10 ⊢
      match i with
      | 0 => exact ⟨by simp, rfl⟩
      | 1 => simp [List.getD_cons_succ, List.getD_cons_zero] at h10
      | (j + 2) =>
        simp only [List.getD_cons_succ] at h10
        simp only [List.length_cons] at hi
        have := ih j (by omega) h10
        refine ⟨by simp [List.length_cons]; omega, ?_⟩
        simp only [List.getD_cons_succ]
        exact this.2
    · rw [if_neg hb] at hi h10 ⊢
      match i with
      | 0 => simp [List.getD_cons_zero] at h10; exact absurd h10 hb
      | (j + 1) =>
        simp only [List.getD_cons_succ] at h10
        simp only [List.length_cons] at hi
        have := ih j (by omega) h10
        refine ⟨by simp [List.length_cons]; omega, ?_⟩
        simp only [List.getD_cons_succ]
        exact this.2

theorem getD_drop (l : Bytes) (s t : Nat) :
    (l.drop s).getD t 0 = l.getD (s + t) 0 := by
  rw [List.getD_eq_getElem?_getD, List.getD_eq_getElem?_getD,
    List.getElem?_drop]

theorem findAux_first {l : Bytes} {b : Nat} :
    ∀ {i : Nat}, findAux l b = some i → ∀ j, j < i → l.getD j 0 ≠ b := by
  induction l with
  | nil => intro i h; simp [findAux] at h
  | cons x xs ih =>
    intro i h
    rw [findAux] at h
    by_cases hx : x = b
    · rw [if_pos hx] at h
      cases h
      intro j hj
      omega
    · rw [if_neg hx] at h
      cases hxs : findAux xs b with
      | none => rw [hxs] at h; simp at h
      | some i' =>
        rw [hxs] at h
        simp at h
        intro j hj
        match j with
        | 0 => simpa using hx
        | j + 1 =>
          rw [List.getD_cons_succ]
          exact ih hxs j (by omega)

theorem findFrom_first {l : Bytes} {b : Nat} {s : Nat}
    (h : findFrom l b s ≠ -1) :
    ∀ j, s ≤ j → j < (findFrom l b s).toNat → l.getD j 0 ≠ b := by
  unfold findFrom at *
  cases hf : findAux (l.drop s) b with
  | none => rw [hf] at h; simp at h
  | some i =>
    intro j hj1 hj2
    dsimp only at hj2
    rw [Int.toNat_ofNat] at hj2
    have hfirst := findAux_first hf (j - s) (by omega)
    rw [getD_drop] at hfirst
    rwa [show s + (j - s) = j by omega] at hfirst

theorem mem_sliceN {l : Bytes} {a b x : Nat} (h : x ∈ sliceN l a b) :
    ∃ j, a ≤ j ∧ j < b ∧ j < l.length ∧ l.getD j 0 = x := by
  unfold sliceN at h
  obtain ⟨i, hi, hget⟩ := List.getElem_of_mem h
  have hlen : ((l.take b).drop a).length = min b l.length - a := by
    simp [List.length_drop, List.length_take]
  refine ⟨a + i, by omega, by omega, by omega, ?_⟩
  rw [List.getElem_drop] at hget
  rw [List.getElem_take] at hget
  rw [List.getD_eq_getElem?_getD, List.getElem?_eq_getElem (by omega), hget]
  rfl

theorem key_no_space {raw : Bytes} {start : Nat}
    (hsp : findFrom raw 32 start ≠ -1) :
    32 ∉ sliceN raw start (findFrom raw 32 start).toNat := by
  intro hmem
  obtain ⟨j, hj1, hj2, hj3, hj4⟩ := mem_sliceN hmem
  exact findFrom_first hsp j hj1 hj2 hj4

theorem key_ne_nil {raw : Bytes} {start : Nat}
    (hsp : findFrom raw 32 start ≠ -1) (hb : raw.getD start 0 ≠ 32) :
    sliceN raw start (findFrom raw 32 start).toNat ≠ [] := by
  have hbd := findFrom_ne_neg_one hsp
  have hlt : start < (findFrom raw 32 start).toNat := by
    rcases Nat.lt_or_ge start (findFrom raw 32 start).toNat with h | h
    · exact h
    · have heq : (findFrom raw 32 start).toNat = start := by omega
      rw [heq] at hbd
      exact absurd hbd.2.2 hb
  intro hnil
  have : (sliceN raw start (findFrom raw 32 start).toNat).length = 0 := by
    rw [hnil]; rfl
  unfold sliceN at this
  simp only [List.length_drop, List.length_take] at this
  omega

theorem valueScan_stop {raw : Bytes} {space e : Nat} :
    ∀ {v : Bytes} {r : Int}, valueScan raw space e = .ok (v, r) → r ≠ -1 →
      raw.getD (r.toNat + 1) 0 ≠ 32 := by
  induction e using valueScan.induct raw space with
  | case1 e he =>
    intro v r h hr
    rw [valueScan, dif_pos he] at h
    cases h
    simp at hr
  | case2 e he hlen hsp =>
    intro v r h hr
    rw [valueScan, dif_neg he, dif_pos hlen, if_pos hsp] at h
    cases h
    exact hsp
  | case3 e he hlen hsp ih =>
    intro v r h hr
    rw [valueScan, dif_neg he, dif_pos hlen, if_neg hsp] at h
    exact ih h hr
  | case4 e he hlen =>
    intro v r h hr
    rw [valueScan, dif_neg he, dif_neg hlen] at h
    cases h

/-- `setItem` preserves the three key invariants of parse outputs, given
the inserted key is space-free and (except into an empty store)
non-empty. -/
theorem inv3_setItem (obj : KV) (key : Bytes) (v : Bytes)
    (h1 : (keysOf obj).Nodup) (h2 : ∀ k ∈ keysOf obj, 32 ∉ k)
    (h3 : ∀ k ∈ (keysOf obj).tail, k ≠ [])
    (hknsp : 32 ∉ key)
    (hkne : obj = [] ∨ key ≠ []) :
    (keysOf (setItem obj key v)).Nodup ∧
      (∀ k ∈ keysOf (setItem obj key v), 32 ∉ k) ∧
      (∀ k ∈ (keysOf (setItem obj key v)).tail, k ≠ []) := by
  rw [keysOf_setItem]
  by_cases hmem : key ∈ keysOf obj
  · rw [if_pos hmem]
    exact ⟨h1, h2, h3⟩
  · rw [if_neg hmem]
    refine ⟨?_, ?_, ?_⟩
    · rw [List.nodup_append]
      exact ⟨h1, List.nodup_singleton key, by simpa using hmem⟩
    · intro k hk
      rcases List.mem_append.mp hk with hold | hnew
      · exact h2 k hold
      · rw [List.mem_singleton.mp hnew]
        exact hknsp
    · cases obj with
      | nil =>
        intro k hk
        simp [keysOf] at hk
      | cons p rest =>
        rcases hkne with hobj | hne
        · cases hobj
        · intro k hk
          rw [keysOf_cons, List.cons_append, List.tail_cons] at hk
          rcases List.mem_append.mp hk with hold | hnew
          · exact h3 k (by rw [keysOf_cons]; exact hold)
          · rw [List.mem_singleton.mp hnew]
            exact hne

/-- Phase 1 of the round-trip proof: any multimap the parser returns
has pairwise-distinct keys, none of its keys contains a space, and
every key except possibly the first one is non-empty. -/
theorem fromDataLoop_inv {raw : Bytes} {obj : KV} {start : Nat} :
    ∀ {M : KV}, fromDataLoop raw obj start = .ok M →
      ((keysOf obj).Nodup ∧ (∀ k ∈ keysOf obj, 32 ∉ k) ∧
        (∀ k ∈ (keysOf obj).tail, k ≠ [])) →
      (obj = [] ∨ raw.getD start 0 ≠ 32) →
      ((keysOf M).Nodup ∧ (∀ k ∈ keysOf M, 32 ∉ k) ∧
        (∀ k ∈ (keysOf M).tail, k ≠ [])) := by
  induction obj, start using fromDataLoop.induct raw with
  | case1 obj start hsp =>
    intro M h hinv hstart
    rw [fromDataLoop_eq, if_pos hsp] at h
    cases h
    exact hinv
  | case2 obj start hsp err hscan =>
    intro M h hinv hstart
    rw [fromDataLoop_eq, if_neg hsp, hscan] at h
    cases h
  | case3 obj start hsp value hscan =>
    intro M h hinv hstart
    rw [fromDataLoop_eq, if_neg hsp, hscan] at h
    simp only [if_pos rfl] at h
    cases h
    exact inv3_setItem obj _ value hinv.1 hinv.2.1 hinv.2.2
      (key_no_space hsp)
      (hstart.imp id (fun hb => key_ne_nil hsp hb))
  | case4 obj start hsp value e hscan he ih =>
    intro M h hinv hstart
    rw [fromDataLoop_eq, if_neg hsp, hscan] at h
    simp only [if_neg he] at h
    have hset := inv3_setItem obj _ value hinv.1 hinv.2.1 hinv.2.2
      (key_no_space hsp)
      (hstart.imp id (fun hb => key_ne_nil hsp hb))
    refine ih h hset (Or.inr ?_)
    exact valueScan_stop hscan he

/-- The invariants, stated for `from_data`. -/
theorem from_data_inv {raw : Bytes} {M : KV}
    (h : KeyValueStore.from_data raw = .ok M) :
    (keysOf M).Nodup ∧ (∀ k ∈ keysOf M, 32 ∉ k) ∧
      (∀ k ∈ (keysOf M).tail, k ≠ []) := by
  refine fromDataLoop_inv h ?_ (Or.inl rfl)
  refine ⟨List.nodup_nil, ?_, ?_⟩ <;> intro k hk <;> simp [keysOf] at hk

/-- The bytes of a scalar value (never applied to list values in the
round-trip argument). -/
def valBytes : Value → Bytes
  | Value.scalar v => v
  | Value.list _ => []

/-- One rendered entry of `KeyValueStore.serialize`:
`key + b' ' + value.replace(b'\n', b'\n ')`. -/
def renderEntry (p : Bytes × Value) : Bytes :=
  p.1 ++ [32] ++ escapeNl (valBytes p.2)

theorem serializeItems_ok {M : KV} :
    ∀ {items : List Bytes}, serializeItems M = .ok items →
      (∀ p ∈ M, ∃ v, p.2 = Value.scalar v) ∧ items = M.map renderEntry := by
  induction M with
  | nil =>
    intro items h
    cases h
    exact ⟨by simp, rfl⟩
  | cons p rest ih =>
    intro items h
    obtain ⟨k, val⟩ := p
    cases val with
    | scalar v =>
      rw [serializeItems] at h
      cases hrest : serializeItems rest with
      | error err => rw [hrest] at h; cases h
      | ok r =>
        rw [hrest] at h
        cases h
        obtain ⟨hscal, hr⟩ := ih hrest
        refine ⟨?_, ?_⟩
        · intro q hq
          rcases List.mem_cons.mp hq with hq | hq
          · exact ⟨v, by rw [hq]⟩
          · exact hscal q hq
        · rw [List.map_cons, ← hr]
          rfl
    | list vs =>
      rw [serializeItems] at h
      cases h

theorem serialize_ok {M : KV} {s : Bytes}
    (h : KeyValueStore.serialize M = .ok s) :
    (∀ p ∈ M, ∃ v, p.2 = Value.scalar v) ∧
      s = List.intercalate [10] (M.map renderEntry) := by
  rw [KeyValueStore.serialize] at h
  cases hit : serializeItems M with
  | error err => rw [hit] at h; cases h
  | ok items =>
    rw [hit] at h
    cases h
    obtain ⟨hscal, hi⟩ := serializeItems_ok hit
    exact ⟨hscal, by rw [hi]⟩

theorem setItem_append_fresh {m : KV} {k : Bytes} (v : Bytes)
    (h : k ∉ keysOf m) :
    setItem m k v = m ++ [(k, Value.scalar v)] := by
  induction m with
  | nil => rfl
  | cons p rest ih =>
    obtain ⟨k₀, v₀⟩ := p
    rw [keysOf_cons, List.mem_cons, not_or] at h
    simp only [setItem]
    rw [if_neg (fun hc => h.1 hc.symm), ih h.2]
    rfl

/-- Folding the entries of a parse-produced scalar multimap back into a
store (with keys disjoint from the accumulator) appends them
unchanged. -/
theorem rebuild_fold (M : KV) :
    ∀ acc : KV, (keysOf M).Nodup →
      (∀ p ∈ M, ∃ v, p.2 = Value.scalar v) →
      (∀ k ∈ keysOf M, k ∉ keysOf acc) →
      M.foldl (fun m p => setItem m p.1 (valBytes p.2)) acc = acc ++ M := by
  induction M with
  | nil => intro acc _ _ _; simp
  | cons p rest ih =>
    intro acc hnd hscal hdisj
    obtain ⟨v, hv⟩ := hscal p (List.mem_cons_self p rest)
    have hfresh : p.1 ∉ keysOf acc :=
      hdisj p.1 (by rw [keysOf_cons]; exact List.mem_cons_self _ _)
    have hstep : setItem acc p.1 (valBytes p.2) = acc ++ [p] := by
      rw [setItem_append_fresh _ hfresh]
      have : (p.1, Value.scalar (valBytes p.2)) = p := by
        obtain ⟨k, val⟩ := p
        simp only at hv
        rw [hv]
        rfl
      rw [this]
    rw [List.foldl_cons, hstep]
    have hnd' : (keysOf rest).Nodup := by
      rw [keysOf_cons] at hnd
      exact (List.nodup_cons.mp hnd).2
    have hp1 : p.1 ∉ keysOf rest := by
      rw [keysOf_cons] at hnd
      exact (List.nodup_cons.mp hnd).1
    have hdisj' : ∀ k ∈ keysOf rest, k ∉ keysOf (acc ++ [p]) := by
      intro k hk
      rw [keysOf, List.map_append]
      intro hmem
      rcases List.mem_append.mp hmem with hacc | hone
      · exact hdisj k (by rw [keysOf_cons]; exact List.mem_cons_of_mem _ hk) hacc
      · simp only [List.map_cons, List.map_nil, List.mem_singleton] at hone
        exact hp1 (hone ▸ hk)
    rw [ih (acc ++ [p]) hnd' (fun q hq => hscal q (List.mem_cons_of_mem _ hq))
      hdisj']
    simp

theorem drop_through (C E rest : Bytes) {d : Nat} (hd : d ≤ E.length) :
    (C ++ E ++ rest).drop (C.length + d) = E.drop d ++ rest := by
  rw [List.append_assoc, List.drop_append, List.drop_append_of_le_length hd]

/-- The inner value scan, run over a buffer laid out as
`C ++ E ++ rest` with the scan start inside `C`'s last position: as long
as every newline of `E` is followed (inside `E`) by a space, and `rest`
is either empty or a newline followed by a non-space, the scan consumes
exactly `E`, returning its unescaped form, and reports `-1` at
end-of-buffer or the index of the newline that starts `rest`. -/
theorem valueScan_through (C E rest : Bytes) (space : Nat)
    (hC : C.length = space + 1)
    (hE : ∀ i, i < E.length → E.getD i 0 = 10 →
      i + 1 < E.length ∧ E.getD (i + 1) 0 = 32)
    (hrest : rest = [] ∨
      (∃ r', rest = 10 :: r' ∧ r' ≠ [] ∧ r'.getD 0 0 ≠ 32)) :
    ∀ d : Nat, d ≤ E.length →
      valueScan (C ++ E ++ rest) space (space + d) =
        .ok (unescapeNl E,
          if rest = [] then -1 else ((space + 1 + E.length : Nat) : Int)) := by
  suffices hgen : ∀ m d, E.length - d = m → d ≤ E.length →
      valueScan (C ++ E ++ rest) space (space + d) =
        .ok (unescapeNl E,
          if rest = [] then -1 else ((space + 1 + E.length : Nat) : Int)) by
    intro d hd
    exact hgen (E.length - d) d rfl hd
  intro m
  induction m using Nat.strong_induction_on with
  | _ m ih =>
    intro d hm hd
    have hdropd : (C ++ E ++ rest).drop (space + d + 1) = E.drop d ++ rest := by
      rw [show space + d + 1 = C.length + d by omega]
      exact drop_through C E rest hd
    have hlenraw : (C ++ E ++ rest).length =
        space + 1 + E.length + rest.length := by
      simp [List.length_append]
      omega
    cases hfind : findAux (E.drop d) 10 with
    | some j =>
      have hj := findAux_eq_some hfind
      have hjlen : j < E.length - d := by
        have := hj.1
        simpa [List.length_drop] using this
      have hjget : E.getD (d + j) 0 = 10 := by
        have := hj.2
        rwa [getD_drop] at this
      have hesc := hE (d + j) (by omega) hjget
      have hf : findFrom (C ++ E ++ rest) 10 (space + d + 1) =
          ((space + d + 1 + j : Nat) : Int) := by
        unfold findFrom
        rw [hdropd, findAux_append, hfind]
      have hfnat : (((space + d + 1 + j : Nat) : Int)).toNat =
          space + d + 1 + j := Int.toNat_ofNat _
      have hstep : (C ++ E ++ rest).getD (space + d + 1 + j + 1) 0 = 32 := by
        have h1 : (C ++ (E ++ rest)).getD (C.length + (d + j + 1)) 0 =
            (E ++ rest).getD (d + j + 1) 0 := by
          rw [getD_append_right (by omega)]
          congr 1
          omega
        have h2 : (E ++ rest).getD (d + j + 1) 0 = E.getD (d + j + 1) 0 :=
          getD_append_left hesc.1
        have heq : space + d + 1 + j + 1 = C.length + (d + j + 1) := by omega
        rw [← List.append_assoc] at h1
        rw [heq, h1, h2]
        exact hesc.2
      rw [valueScan, dif_neg (by rw [hf]; omega), hf, hfnat]
      rw [dif_pos (by omega : space + d + 1 + j + 1 < (C ++ E ++ rest).length)]
      rw [if_neg (by rw [hstep]; simp)]
      have harg : space + d + 1 + j = space + (d + j + 1) := by omega
      rw [harg]
      exact ih (E.length - (d + j + 1)) (by omega) (d + j + 1) rfl (by omega)
    | none =>
      rcases hrest with hnil | ⟨r', hr, hrne, hr32⟩
      · subst hnil
        have hf : findFrom (C ++ E ++ ([] : Bytes)) 10 (space + d + 1) = -1 := by
          unfold findFrom
          rw [hdropd, List.append_nil, hfind]
        rw [valueScan, dif_pos hf]
        rw [if_pos rfl]
        have hslice : sliceN (C ++ E ++ ([] : Bytes)) (space + 1)
            (C ++ E ++ ([] : Bytes)).length = E := by
          rw [sliceN_to_length,
            show space + 1 = C.length + 0 by omega,
            drop_through C E [] (Nat.zero_le _)]
          simp
        rw [hslice]
      · subst hr
        have hf : findFrom (C ++ E ++ (10 :: r')) 10 (space + d + 1) =
            ((space + 1 + E.length : Nat) : Int) := by
          unfold findFrom
          rw [hdropd, findAux_append, hfind]
          have h10 : findAux (10 :: r') 10 = some 0 := by simp [findAux]
          rw [h10]
          simp only [Option.map]
          congr 1
          simp only [List.length_drop]
          omega
        have hrlen : 1 ≤ r'.length := by
          cases r' with
          | nil => exact absurd rfl hrne
          | cons a l => simp
        rw [valueScan, dif_neg (by rw [hf]; omega), hf, Int.toNat_ofNat]
        rw [dif_pos (by rw [hlenraw]; simp only [List.length_cons]; omega)]
        have hstop : (C ++ E ++ (10 :: r')).getD (space + 1 + E.length + 1) 0 =
            r'.getD 0 0 := by
          rw [List.append_assoc, getD_append_right (by omega),
            show space + 1 + E.length + 1 - C.length = E.length + 1 by omega,
            getD_append_right (by omega : E.length ≤ E.length + 1),
            show E.length + 1 - E.length = 1 by omega,
            List.getD_cons_succ]
        rw [if_pos (by rw [hstop]; exact hr32)]
        have hslice : sliceN (C ++ E ++ (10 :: r')) (space + 1)
            (space + 1 + E.length) = E := by
          have := sliceN_mid C E (10 :: r')
          rwa [hC] at this
        rw [hslice]
        rw [if_neg (by simp)]

theorem intercalate_single (x : Bytes) : List.intercalate [10] [x] = x := by
  simp [List.intercalate]

theorem intercalate_cons2 (x y : Bytes) (ys : List Bytes) :
    List.intercalate [10] (x :: y :: ys) =
      x ++ [10] ++ List.intercalate [10] (y :: ys) := by
  simp [List.intercalate, List.intersperse]

theorem intercalate_head (x : Bytes) (xs : List Bytes) :
    ∃ W, List.intercalate [10] (x :: xs) = x ++ W := by
  cases xs with
  | nil => exact ⟨[], by rw [intercalate_single, List.append_nil]⟩
  | cons y ys =>
    exact ⟨[10] ++ List.intercalate [10] (y :: ys),
      by rw [intercalate_cons2, List.append_assoc]⟩

theorem getD_zero_mem {l : Bytes} (h : l ≠ []) : l.getD 0 0 ∈ l := by
  cases l with
  | nil => exact absurd rfl h
  | cons x xs => simp [List.getD_cons_zero]

/-- Phase 2 of the round-trip proof, generalized over the loop state:
re-parsing `pre ++ serialize(rem)` from position `len(pre)` folds the
entries of `rem` (space-free keys, scalar values, non-head keys
non-empty) into the accumulator one loop iteration per entry. -/
theorem reparse_loop (rem : KV) :
    ∀ (pre : Bytes) (obj : KV),
      (∀ p ∈ rem, ∃ v, p.2 = Value.scalar v) →
      (∀ p ∈ rem, 32 ∉ p.1) →
      (∀ p ∈ rem.tail, p.1 ≠ []) →
      fromDataLoop (pre ++ List.intercalate [10] (rem.map renderEntry)) obj
          pre.length =
        .ok (rem.foldl (fun m p => setItem m p.1 (valBytes p.2)) obj) := by
  induction rem with
  | nil =>
    intro pre obj _ _ _
    rw [List.map_nil, show List.intercalate [10] ([] : List Bytes) = [] from rfl]
    rw [fromDataLoop_eq, if_pos (findFrom_of_ge_length (by simp))]
    rfl
  | cons p rem' ih =>
    intro pre obj hscal hk32 htail
    obtain ⟨k, val⟩ := p
    obtain ⟨v, hv⟩ := hscal (k, val) (List.mem_cons_self _ _)
    simp only at hv
    subst hv
    have hkns : 32 ∉ k := hk32 (k, Value.scalar v) (List.mem_cons_self _ _)
    have hrender : renderEntry (k, Value.scalar v) = k ++ [32] ++ escapeNl v := rfl
    cases rem' with
    | nil =>
      rw [List.map_cons, List.map_nil, intercalate_single, hrender]
      set raw := pre ++ (k ++ [32] ++ escapeNl v) with hraw
      have hassocA : raw = (pre ++ k) ++ 32 :: escapeNl v := by
        rw [hraw]
        simp
      have hsp : findFrom raw 32 pre.length =
          (((pre ++ k).length : Nat) : Int) := by
        rw [hassocA]
        exact findFrom_append _ (by simp) (by rw [List.drop_left]; exact hkns)
      have hspne : findFrom raw 32 pre.length ≠ -1 := by
        rw [hsp]
        omega
      have hsptn : (findFrom raw 32 pre.length).toNat = pre.length + k.length := by
        rw [hsp, Int.toNat_ofNat, List.length_append]
      have hkey : sliceN raw pre.length (pre.length + k.length) = k := by
        have hassocB : raw = pre ++ k ++ ([32] ++ escapeNl v) := by
          rw [hraw]
          simp
        rw [hassocB]
        exact sliceN_mid pre k _
      have hscan : valueScan raw (pre.length + k.length)
          (pre.length + k.length) = .ok (v, -1) := by
        have hassocC : raw = (pre ++ k ++ [32]) ++ escapeNl v ++ [] := by
          rw [hraw]
          simp
        have := valueScan_through (pre ++ k ++ [32]) (escapeNl v) []
          (pre.length + k.length) (by simp [List.length_append]; omega)
          (escapeNl_nl_followed v) (Or.inl rfl) 0 (Nat.zero_le _)
        rw [unescapeNl_escapeNl, if_pos rfl, Nat.add_zero] at this
        rw [hassocC]
        exact this
      rw [fromDataLoop_eq, if_neg hspne, hsptn, hscan]
      dsimp only
      rw [if_pos (show (-1 : Int) = -1 from rfl), hkey]
      rfl
    | cons q rem'' =>
      rw [List.map_cons, List.map_cons, intercalate_cons2, hrender]
      set buf := List.intercalate [10]
        (renderEntry q :: rem''.map renderEntry) with hbuf
      set raw := pre ++ (k ++ [32] ++ escapeNl v ++ [10] ++ buf) with hraw
      have hassocA : raw = (pre ++ k) ++ 32 :: (escapeNl v ++ [10] ++ buf) := by
        rw [hraw]
        simp
      have hsp : findFrom raw 32 pre.length =
          (((pre ++ k).length : Nat) : Int) := by
        rw [hassocA]
        exact findFrom_append _ (by simp) (by rw [List.drop_left]; exact hkns)
      have hspne : findFrom raw 32 pre.length ≠ -1 := by
        rw [hsp]
        omega
      have hsptn : (findFrom raw 32 pre.length).toNat = pre.length + k.length := by
        rw [hsp, Int.toNat_ofNat, List.length_append]
      have hkey : sliceN raw pre.length (pre.length + k.length) = k := by
        have hassocB : raw = pre ++ k ++ ([32] ++ escapeNl v ++ [10] ++ buf) := by
          rw [hraw]
          simp
        rw [hassocB]
        exact sliceN_mid pre k _
      have hq1 : q.1 ≠ [] := htail q (List.mem_cons_self _ _)
      have hq32 : 32 ∉ q.1 := hk32 q (List.mem_cons_of_mem _ (List.mem_cons_self _ _))
      obtain ⟨W, hW⟩ := intercalate_head (renderEntry q) (rem''.map renderEntry)
      have hbufW : buf = q.1 ++ ([32] ++ escapeNl (valBytes q.2) ++ W) := by
        rw [hbuf, hW]
        simp [renderEntry]
      have hbufne : buf ≠ [] := by
        rw [hbufW]
        cases q.1 <;> simp
      have hbuf0 : buf.getD 0 0 ≠ 32 := by
        rw [hbufW]
        rw [getD_append_left (by cases hcq : q.1 with
          | nil => exact absurd hcq hq1
          | cons a l => simp [hcq])]
        intro hc
        exact hq32 (hc ▸ getD_zero_mem hq1)
      have hscan : valueScan raw (pre.length + k.length)
          (pre.length + k.length) =
          .ok (v, ((pre.length + k.length + 1 + (escapeNl v).length : Nat) : Int)) := by
        have hassocC : raw = (pre ++ k ++ [32]) ++ escapeNl v ++ (10 :: buf) := by
          rw [hraw]
          simp
        have := valueScan_through (pre ++ k ++ [32]) (escapeNl v) (10 :: buf)
          (pre.length + k.length) (by simp [List.length_append]; omega)
          (escapeNl_nl_followed v)
          (Or.inr ⟨buf, rfl, hbufne, hbuf0⟩) 0 (Nat.zero_le _)
        rw [unescapeNl_escapeNl, if_neg (by simp), Nat.add_zero] at this
        rw [hassocC]
        exact this
      rw [fromDataLoop_eq, if_neg hspne, hsptn, hscan]
      dsimp only
      rw [if_neg (by omega), hkey, Int.toNat_ofNat]
      have hpre2 : pre.length + k.length + 1 + (escapeNl v).length + 1 =
          (pre ++ (k ++ [32] ++ escapeNl v ++ [10])).length := by
        simp [List.length_append]
        omega
      have hraw2 : raw = (pre ++ (k ++ [32] ++ escapeNl v ++ [10])) ++ buf := by
        rw [hraw]
        simp
      have hih := ih (pre ++ (k ++ [32] ++ escapeNl v ++ [10])) (setItem obj k v)
        (fun p hp => hscal p (List.mem_cons_of_mem _ hp))
        (fun p hp => hk32 p (List.mem_cons_of_mem _ hp))
        (fun p hp => htail p (List.mem_cons_of_mem _ hp))
      rw [List.map_cons, ← hbuf] at hih
      rw [hpre2, hraw2]
      exact hih

/-- C2 amended: for every multimap `M` that `parse` produces and on
which `serialize` succeeds — i.e. every parse-produced `M` whose values
are all scalars (no duplicated key) — `parse (serialize M) = M`: same
keys, same order, same shape. -/
theorem claim_C2_amended_scalar_roundtrip (raw : Bytes) (M : KV) (s : Bytes)
    (hparse : KeyValueStore.from_data raw = .ok M)
    (hser : KeyValueStore.serialize M = .ok s) :
    KeyValueStore.from_data s = .ok M := by
  obtain ⟨hnd, hns, htail⟩ := from_data_inv hparse
  obtain ⟨hscal, hs⟩ := serialize_ok hser
  have hloop := reparse_loop M [] []
    hscal
    (fun p hp => hns p.1 (List.mem_map_of_mem Prod.fst hp))
    (fun p hp => by
      refine htail p.1 ?_
      cases M with
      | nil => simp at hp
      | cons p₀ rest =>
        rw [keysOf_cons, List.tail_cons]
        simp only [List.tail_cons] at hp
        exact List.mem_map_of_mem Prod.fst hp)
  rw [List.nil_append] at hloop
  rw [rebuild_fold M [] hnd hscal (by intro k _ hk; simp [keysOf] at hk),
    List.nil_append] at hloop
  rw [KeyValueStore.from_data, hs]
  exact hloop

theorem claim_C2_amended_witness :
    KeyValueStore.from_data (byteStr ("a x\nb y")) =
      .ok [(byteStr ("a"), Value.scalar (byteStr ("x"))),
        (byteStr ("b"), Value.scalar (byteStr ("y")))] := by
  refine claim_C2_amended_scalar_roundtrip (byteStr ("a x\nb y")) _
    (byteStr ("a x\nb y")) ?_ ?_
  · rw [from_data_eq_exec]
    decide
  · decide

end GitPy
